import Mathlib

/-
Verification of the pessimistic transaction lock manager
(`utilities/transactions/transaction_lock_mgr.cc`).

The embedding is shallow and extensional:

* `std::unordered_map` state (per-stripe key tables, the column-family
  registry, and the two wait-for-graph maps) is modelled as an association
  list with strictly sorted `Nat` keys.  The sorted representation is
  canonical, so map equality in Lean coincides with extensional equality of
  the C++ maps, which is what statements such as "restores the map exactly"
  mean for an unordered container.
* `TransactionID` (`uint64_t`), keys (`std::string`) and microsecond clock
  values (`uint64_t`) are modelled as `Nat`; `max_num_locks` and `lock_cnt`
  (`int64_t`) as `Int`.  None of the modelled code paths can overflow a
  64-bit counter on the inputs we quantify over, except where noted.
* The environment clock (`Env::NowMicros`), the transaction-DB callback
  (`TransactionDBImpl::TryStealingExpiredTransactionLocks`) and the
  condition-variable wait outcomes are oracles: pure functions supplied as
  parameters, indexed by call count where the call sequence matters.
* Mutexes always succeed and the execution is sequential: each claim is
  about the state transformation performed by one call while it holds the
  relevant stripe / graph mutex, which is exactly the granularity at which
  the C++ code manipulates the shared state.
-/

namespace LockMgr

/-- Lookup in an association list (first matching key). -/
def lookupM {β : Type} : List (Nat × β) → Nat → Option β
  | [], _ => none
  | (k, v) :: t, x => if x = k then some v else lookupM t x

/-- Insert into a keys-sorted association list, replacing an existing
binding.  Keeps the strictly-ascending key order, so the representation of
a map is canonical. -/
def insertM {β : Type} : List (Nat × β) → Nat → β → List (Nat × β)
  | [], x, v => [(x, v)]
  | (k, w) :: t, x, v =>
      if x < k then (x, v) :: (k, w) :: t
      else if x = k then (x, v) :: t
      else (k, w) :: insertM t x v

/-- Erase a key from an association list (first occurrence). -/
def eraseM {β : Type} : List (Nat × β) → Nat → List (Nat × β)
  | [], _ => []
  | (k, w) :: t, x => if x = k then t else (k, w) :: eraseM t x

/-- The well-formedness invariant of the canonical map representation:
keys are strictly increasing. -/
def SortedKeys {β : Type} (l : List (Nat × β)) : Prop :=
  l.Pairwise (fun a b => a.1 < b.1)

instance {β : Type} (l : List (Nat × β)) : Decidable (SortedKeys l) := by
  unfold SortedKeys
  exact List.instDecidablePairwise l

theorem lookupM_eq_none_of_forall_lt {β : Type} (l : List (Nat × β)) (x : Nat)
    (h : ∀ p ∈ l, x < p.1) : lookupM l x = none := by
  induction l with
  | nil => rfl
  | cons hd t ih =>
      have hx : x ≠ hd.1 := Nat.ne_of_lt (h hd (by simp))
      obtain ⟨a, w⟩ := hd
      simp only [lookupM, if_neg hx]
      exact ih fun p hp => h p (by simp [hp])

theorem lookupM_eq_none_of_not_mem_keys {β : Type} (l : List (Nat × β)) (x : Nat)
    (h : x ∉ l.map Prod.fst) : lookupM l x = none := by
  induction l with
  | nil => rfl
  | cons hd t ih =>
      obtain ⟨a, w⟩ := hd
      simp only [List.map_cons, List.mem_cons, not_or] at h
      simp only [lookupM, if_neg h.1]
      exact ih h.2

theorem lookupM_insertM {β : Type} (l : List (Nat × β)) (k x : Nat) (v : β) :
    lookupM (insertM l k v) x = if x = k then some v else lookupM l x := by
  induction l with
  | nil => simp [insertM, lookupM]
  | cons hd t ih =>
      obtain ⟨a, w⟩ := hd
      by_cases h1 : k < a
      · simp [insertM, if_pos h1, lookupM]
      · by_cases h2 : k = a
        · subst h2
          simp only [insertM, if_neg h1, if_pos rfl, lookupM]
          by_cases hx : x = k
          · simp [hx]
          · simp [hx]
        · have h2a : a ≠ k := fun hh => h2 hh.symm
          simp only [insertM, if_neg h1, if_neg h2, lookupM]
          by_cases hx : x = a
          · have hxk : x ≠ k := by omega
            simp [hx, hxk, h2a]
          · simp [hx, ih]

theorem lookupM_eraseM {β : Type} (l : List (Nat × β)) (k x : Nat)
    (hs : SortedKeys l) :
    lookupM (eraseM l k) x = if x = k then none else lookupM l x := by
  induction l with
  | nil => simp [eraseM, lookupM]
  | cons hd t ih =>
      obtain ⟨a, w⟩ := hd
      rw [SortedKeys, List.pairwise_cons] at hs
      by_cases h1 : k = a
      · subst h1
        simp only [eraseM, if_pos rfl]
        by_cases hx : x = k
        · subst hx
          simp only [if_pos rfl]
          exact lookupM_eq_none_of_forall_lt t x hs.1
        · simp [lookupM, hx]
      · have h1a : a ≠ k := fun hh => h1 hh.symm
        simp only [eraseM, if_neg h1, lookupM]
        by_cases hx : x = a
        · have hxk : x ≠ k := by omega
          simp [hx, hxk, h1a]
        · simp [hx, ih hs.2]

theorem eraseM_insertM {β : Type} (l : List (Nat × β)) (k : Nat) (v : β)
    (h : lookupM l k = none) : eraseM (insertM l k v) k = l := by
  induction l with
  | nil => simp [insertM, eraseM]
  | cons hd t ih =>
      obtain ⟨a, w⟩ := hd
      simp only [lookupM] at h
      by_cases h2 : k = a
      · simp [h2] at h
      · simp only [if_neg h2] at h
        by_cases h1 : k < a
        · simp [insertM, if_pos h1, eraseM]
        · simp [insertM, if_neg h1, if_neg h2, eraseM, h2, ih h]

theorem insertM_insertM {β : Type} (l : List (Nat × β)) (k : Nat) (v w : β) :
    insertM (insertM l k v) k w = insertM l k w := by
  induction l with
  | nil => simp [insertM]
  | cons hd t ih =>
      obtain ⟨a, z⟩ := hd
      by_cases h1 : k < a
      · simp [insertM, if_pos h1, lt_irrefl]
      · by_cases h2 : k = a
        · subst h2
          simp [insertM, if_neg h1, lt_irrefl]
        · simp [insertM, if_neg h1, if_neg h2, ih]

theorem insertM_eq_self {β : Type} (l : List (Nat × β)) (k : Nat) (v : β)
    (hs : SortedKeys l) (h : lookupM l k = some v) : insertM l k v = l := by
  induction l with
  | nil => simp [lookupM] at h
  | cons hd t ih =>
      obtain ⟨a, w⟩ := hd
      rw [SortedKeys, List.pairwise_cons] at hs
      by_cases h2 : k = a
      · subst h2
        have hv : w = v := by simpa [lookupM] using h
        subst hv
        simp [insertM, lt_irrefl]
      · rw [lookupM, if_neg h2] at h
        by_cases h1 : k < a
        · have hn : lookupM t k = none :=
            lookupM_eq_none_of_forall_lt t k fun p hp => lt_trans h1 (hs.1 p hp)
          rw [hn] at h
          exact absurd h (by simp)
        · simp [insertM, if_neg h1, if_neg h2, ih hs.2 h]

theorem mem_keys_insertM {β : Type} (l : List (Nat × β)) (k : Nat) (v : β)
    (p : Nat × β) : p ∈ insertM l k v → p.1 = k ∨ p ∈ l := by
  induction l with
  | nil =>
      intro hp
      rw [insertM, List.mem_singleton] at hp
      left; rw [hp]
  | cons hd t ih =>
      obtain ⟨a, w⟩ := hd
      intro hp
      by_cases h1 : k < a
      · rw [insertM, if_pos h1] at hp
        rcases List.mem_cons.mp hp with h | h
        · left; rw [h]
        · right; exact h
      · by_cases h2 : k = a
        · rw [insertM, if_neg h1, if_pos h2] at hp
          rcases List.mem_cons.mp hp with h | h
          · left; rw [h]
          · right; exact List.mem_cons_of_mem _ h
        · rw [insertM, if_neg h1, if_neg h2] at hp
          rcases List.mem_cons.mp hp with h | h
          · right; rw [h]; exact List.mem_cons_self _ _
          · rcases ih h with h3 | h3
            · left; exact h3
            · right; exact List.mem_cons_of_mem _ h3

theorem sortedKeys_insertM {β : Type} (l : List (Nat × β)) (k : Nat) (v : β)
    (hs : SortedKeys l) : SortedKeys (insertM l k v) := by
  induction l with
  | nil => simp [insertM, SortedKeys]
  | cons hd t ih =>
      obtain ⟨a, w⟩ := hd
      rw [SortedKeys, List.pairwise_cons] at hs
      by_cases h1 : k < a
      · rw [insertM, if_pos h1, SortedKeys, List.pairwise_cons]
        constructor
        · intro p hp
          rcases List.mem_cons.mp hp with h | h
          · subst h; exact h1
          · exact lt_trans h1 (hs.1 p h)
        · rw [SortedKeys] at *
          exact List.pairwise_cons.mpr hs
      · by_cases h2 : k = a
        · subst h2
          rw [insertM, if_neg h1, if_pos rfl, SortedKeys, List.pairwise_cons]
          exact ⟨hs.1, hs.2⟩
        · rw [insertM, if_neg h1, if_neg h2, SortedKeys, List.pairwise_cons]
          constructor
          · intro p hp
            rcases mem_keys_insertM t k v p hp with h | h
            · rw [h]; omega
            · exact hs.1 p h
          · exact ih hs.2

theorem eraseM_sublist {β : Type} (l : List (Nat × β)) (k : Nat) :
    (eraseM l k).Sublist l := by
  induction l with
  | nil => simp [eraseM]
  | cons hd t ih =>
      obtain ⟨a, w⟩ := hd
      by_cases h1 : k = a
      · simp only [eraseM, if_pos h1]
        exact List.sublist_cons_self (a, w) t
      · simp only [eraseM, if_neg h1]
        exact List.Sublist.cons₂ (a, w) ih

theorem sortedKeys_eraseM {β : Type} (l : List (Nat × β)) (k : Nat)
    (hs : SortedKeys l) : SortedKeys (eraseM l k) :=
  List.Pairwise.sublist (eraseM_sublist l k) hs

/-- Number of entries of an association list whose value is `b`.  Applied to
the `wait_txn_map_`, this is the number of waiters blocked on `b`. -/
def countV (l : List (Nat × Nat)) (b : Nat) : Nat :=
  (l.filter fun p => p.2 == b).length

theorem countV_nil (b : Nat) : countV [] b = 0 := rfl

theorem countV_cons (a w b : Nat) (t : List (Nat × Nat)) :
    countV ((a, w) :: t) b = (if w = b then 1 else 0) + countV t b := by
  by_cases h : w = b
  · simp [countV, h]
    omega
  · simp [countV, h]

theorem countV_insertM_fresh (l : List (Nat × Nat)) (k v b : Nat)
    (h : lookupM l k = none) :
    countV (insertM l k v) b = countV l b + (if v = b then 1 else 0) := by
  induction l with
  | nil => simp [insertM, countV_cons, countV_nil]
  | cons hd t ih =>
      obtain ⟨a, w⟩ := hd
      rw [lookupM] at h
      by_cases h2 : k = a
      · simp [h2] at h
      · rw [if_neg h2] at h
        by_cases h1 : k < a
        · rw [insertM, if_pos h1, countV_cons, countV_cons]
          omega
        · rw [insertM, if_neg h1, if_neg h2, countV_cons, countV_cons, ih h]
          omega

theorem countV_eraseM (l : List (Nat × Nat)) (k b v : Nat)
    (h : lookupM l k = some v) :
    countV (eraseM l k) b + (if v = b then 1 else 0) = countV l b := by
  induction l with
  | nil => simp [lookupM] at h
  | cons hd t ih =>
      obtain ⟨a, w⟩ := hd
      rw [lookupM] at h
      by_cases h2 : k = a
      · rw [if_pos h2, Option.some_inj] at h
        subst h
        rw [eraseM, if_pos h2, countV_cons]
        omega
      · rw [if_neg h2] at h
        rw [eraseM, if_neg h2, countV_cons, countV_cons]
        have := ih h
        omega

theorem countV_pos_of_lookup (l : List (Nat × Nat)) (k b : Nat)
    (h : lookupM l k = some b) : 0 < countV l b := by
  induction l with
  | nil => simp [lookupM] at h
  | cons hd t ih =>
      obtain ⟨a, w⟩ := hd
      rw [lookupM] at h
      by_cases h2 : k = a
      · rw [if_pos h2, Option.some_inj] at h
        subst h
        rw [countV_cons]
        simp
      · rw [if_neg h2] at h
        rw [countV_cons]
        have := ih h
        omega

theorem countV_eq_zero_of_not_mem (l : List (Nat × Nat)) (b : Nat)
    (h : b ∉ l.map Prod.snd) : countV l b = 0 := by
  induction l with
  | nil => rfl
  | cons hd t ih =>
      obtain ⟨a, w⟩ := hd
      simp only [List.map_cons, List.mem_cons, not_or] at h
      rw [countV_cons, if_neg (fun hh => h.1 hh.symm), ih h.2]

/-! The wait-for graph (deadlock detector state).

`waiting` models `wait_txn_map_` (each waiter's single blocker) and `rev`
models `rev_wait_txn_map_` (how many waiters point at each blocker).  Both
are guarded by `wait_txn_map_mutex_` in the source; the operations below
are the state transformations performed under that mutex. -/

structure GraphState where
  waiting : List (Nat × Nat)
  rev : List (Nat × Nat)
deriving DecidableEq, Repr

/-- `TransactionLockMgr::DecrementWaitersImpl`: erase the waiter's edge and
decrement the blocker's refcount, dropping the refcount entry at zero.
(The source asserts `wait_txn_map_.count(id) > 0`; callers also guarantee
that the stored blocker is `waitId`, so the refcount being decremented is
at least 1 and the `int` decrement cannot go below zero.) -/
def decrementWaitersImpl (st : GraphState) (id waitId : Nat) : GraphState :=
  let waiting2 := eraseM st.waiting id
  let n := (lookupM st.rev waitId).getD 0 - 1
  let rev2 := if n = 0 then eraseM st.rev waitId else insertM st.rev waitId n
  ⟨waiting2, rev2⟩

/-- `TransactionLockMgr::DecrementWaiters` (takes the graph mutex, then
calls the implementation). -/
def decrementWaiters (st : GraphState) (id waitId : Nat) : GraphState :=
  decrementWaitersImpl st id waitId

/-- The bounded chain walk of `TransactionLockMgr::IncrementWaiters`
(lines 376-386): follow `waiting` from `next` for at most `fuel` steps;
report `true` when `id` is reached (a cycle through `id` closes), `false`
on a dead end, and conservatively `true` when the fuel (the transaction's
deadlock-detect depth) is exhausted. -/
def detectWalk (w : List (Nat × Nat)) (id : Nat) : Nat → Nat → Bool
  | _, 0 => true
  | next, fuel + 1 =>
      if next = id then true
      else
        match lookupM w next with
        | none => false
        | some nx => detectWalk w id nx fuel

/-- `TransactionLockMgr::IncrementWaiters`: record the edge `id → waitId`,
bump the blocker's refcount, then (if anyone waits on `id`) run the bounded
cycle walk; on a detected (or assumed) deadlock, roll the registration back
and report `true`. -/
def incrementWaiters (st : GraphState) (id waitId : Nat) (depth : Nat) :
    Bool × GraphState :=
  let st2 : GraphState :=
    ⟨insertM st.waiting id waitId,
     insertM st.rev waitId ((lookupM st.rev waitId).getD 0 + 1)⟩
  if (lookupM st2.rev id).isNone then (false, st2)
  else if detectWalk st2.waiting id waitId depth then
    (true, decrementWaitersImpl st2 id waitId)
  else (false, st2)

/-- `i`-step iterate of the `waiting` map, as a partial function: the
transaction reached from `x` by following `waiting` `i` times. -/
def chainFrom (w : List (Nat × Nat)) : Nat → Nat → Option Nat
  | x, 0 => some x
  | x, i + 1 =>
      match lookupM w x with
      | none => none
      | some y => chainFrom w y i

theorem chainFrom_succ (w : List (Nat × Nat)) (x y : Nat) (i : Nat)
    (h : lookupM w x = some y) : chainFrom w x (i + 1) = chainFrom w y i := by
  rw [chainFrom, h]

/-- Pointwise accounting between the two graph maps at one blocker `b`. -/
def revSpec (waiting rev : List (Nat × Nat)) (b : Nat) : Prop :=
  lookupM rev b =
    if countV waiting b = 0 then none else some (countV waiting b)

instance (waiting rev : List (Nat × Nat)) (b : Nat) :
    Decidable (revSpec waiting rev b) := by
  unfold revSpec; infer_instance

/-- The wait-for graph invariant: both maps canonical, and
`rev_wait_txn_map_[b]` is exactly the number of waiters blocked on `b`,
with zero-refcount keys absent.  The quantifier ranges over the keys of
`rev` and the values of `waiting`, which is equivalent to ranging over all
transaction IDs (`goodGraph_iff`) but keeps the predicate decidable. -/
def GoodGraph (st : GraphState) : Prop :=
  SortedKeys st.waiting ∧ SortedKeys st.rev ∧
    ∀ b ∈ st.rev.map Prod.fst ++ st.waiting.map Prod.snd,
      revSpec st.waiting st.rev b

instance (st : GraphState) : Decidable (GoodGraph st) := by
  unfold GoodGraph; infer_instance

theorem goodGraph_iff (st : GraphState) :
    GoodGraph st ↔
      SortedKeys st.waiting ∧ SortedKeys st.rev ∧
        ∀ b, revSpec st.waiting st.rev b := by
  constructor
  · rintro ⟨h1, h2, h3⟩
    refine ⟨h1, h2, fun b => ?_⟩
    by_cases hb : b ∈ st.rev.map Prod.fst ++ st.waiting.map Prod.snd
    · exact h3 b hb
    · rw [List.mem_append, not_or] at hb
      have hl : lookupM st.rev b = none :=
        lookupM_eq_none_of_not_mem_keys st.rev b hb.1
      have hc : countV st.waiting b = 0 :=
        countV_eq_zero_of_not_mem st.waiting b hb.2
      rw [revSpec, hl, hc, if_pos rfl]
  · rintro ⟨h1, h2, h3⟩
    exact ⟨h1, h2, fun b _ => h3 b⟩

theorem getD_lookup_rev (st : GraphState) (b : Nat)
    (hw : revSpec st.waiting st.rev b) :
    (lookupM st.rev b).getD 0 = countV st.waiting b := by
  rw [revSpec] at hw
  by_cases hc : countV st.waiting b = 0
  · rw [hw, if_pos hc, hc]; rfl
  · rw [hw, if_neg hc]; rfl

/-- Registering a wait edge `id → waitId` for a fresh waiter preserves the
graph accounting invariant (this is the state left behind by
`IncrementWaiters` when no rollback happens). -/
theorem goodGraph_register_state (st : GraphState) (id waitId : Nat)
    (hg : GoodGraph st) (hid : lookupM st.waiting id = none) :
    GoodGraph ⟨insertM st.waiting id waitId,
               insertM st.rev waitId ((lookupM st.rev waitId).getD 0 + 1)⟩ := by
  rw [goodGraph_iff] at hg ⊢
  obtain ⟨h1, h2, h3⟩ := hg
  refine ⟨sortedKeys_insertM _ _ _ h1, sortedKeys_insertM _ _ _ h2, fun b => ?_⟩
  have hcount : countV (insertM st.waiting id waitId) b
      = countV st.waiting b + (if waitId = b then 1 else 0) :=
    countV_insertM_fresh st.waiting id waitId b hid
  have hg0 : (lookupM st.rev waitId).getD 0 = countV st.waiting waitId :=
    getD_lookup_rev st waitId (h3 waitId)
  rw [revSpec] at *
  rw [lookupM_insertM, hcount]
  by_cases hb : b = waitId
  · subst hb
    rw [if_pos rfl, if_pos rfl, hg0]
    have hnz : countV st.waiting b + 1 ≠ 0 := by omega
    rw [if_neg hnz]
  · rw [if_neg hb, if_neg (fun hh : waitId = b => hb hh.symm)]
    have := h3 b
    rw [revSpec] at this
    simpa using this

/-- The rollback performed by `IncrementWaiters` when it reports a deadlock
(`DecrementWaitersImpl` applied to the freshly registered state) restores
both graph maps exactly as they were on entry. -/
theorem register_rollback (st : GraphState) (id waitId : Nat)
    (hg : GoodGraph st) (hid : lookupM st.waiting id = none) :
    decrementWaitersImpl
      ⟨insertM st.waiting id waitId,
       insertM st.rev waitId ((lookupM st.rev waitId).getD 0 + 1)⟩ id waitId = st := by
  rw [goodGraph_iff] at hg
  obtain ⟨h1, h2, h3⟩ := hg
  have hw := h3 waitId
  rw [revSpec] at hw
  unfold decrementWaitersImpl
  have hwc : eraseM (insertM st.waiting id waitId) id = st.waiting :=
    eraseM_insertM _ _ _ hid
  have hl : lookupM (insertM st.rev waitId ((lookupM st.rev waitId).getD 0 + 1)) waitId
      = some ((lookupM st.rev waitId).getD 0 + 1) := by
    rw [lookupM_insertM, if_pos rfl]
  rw [hl]
  simp only [Option.getD_some, Nat.add_sub_cancel]
  by_cases hz : (lookupM st.rev waitId).getD 0 = 0
  · rw [if_pos hz, hz]
    have hnone : lookupM st.rev waitId = none := by
      by_cases hc : countV st.waiting waitId = 0
      · rw [hw, if_pos hc]
      · rw [hw, if_neg hc] at hz ⊢
        simp at hz
        exact absurd hz hc
    have : eraseM (insertM st.rev waitId (0 + 1)) waitId = st.rev :=
      eraseM_insertM _ _ _ hnone
    rw [hwc]
    rw [show (0 : Nat) + 1 = 1 from rfl] at this ⊢
    rw [this]
  · rw [if_neg hz]
    have hsome : lookupM st.rev waitId = some ((lookupM st.rev waitId).getD 0) := by
      by_cases hc : countV st.waiting waitId = 0
      · rw [hw, if_pos hc] at hz ⊢
        simp at hz
      · rw [hw, if_neg hc]
        rfl
    rw [insertM_insertM, insertM_eq_self st.rev waitId _ h2 hsome, hwc]

/-- `DecrementWaiters` (unregistering the active wait edge `id → waitId`)
preserves the graph accounting invariant. -/
theorem goodGraph_unregister (st : GraphState) (id waitId : Nat)
    (hg : GoodGraph st) (hid : lookupM st.waiting id = some waitId) :
    GoodGraph (decrementWaiters st id waitId) := by
  rw [goodGraph_iff] at hg ⊢
  obtain ⟨h1, h2, h3⟩ := hg
  have hw := h3 waitId
  rw [revSpec] at hw
  have hcpos : 0 < countV st.waiting waitId :=
    countV_pos_of_lookup st.waiting id waitId hid
  have hcne : countV st.waiting waitId ≠ 0 := by omega
  have hsome : lookupM st.rev waitId = some (countV st.waiting waitId) := by
    rw [hw, if_neg hcne]
  have hcount : ∀ b, countV (eraseM st.waiting id) b
      + (if waitId = b then 1 else 0) = countV st.waiting b :=
    fun b => countV_eraseM st.waiting id b waitId hid
  rw [decrementWaiters, decrementWaitersImpl, hsome]
  simp only [Option.getD_some]
  refine ⟨sortedKeys_eraseM _ _ h1, ?_, ?_⟩
  · by_cases hz : countV st.waiting waitId - 1 = 0
    · rw [if_pos hz]
      exact sortedKeys_eraseM _ _ h2
    · rw [if_neg hz]
      exact sortedKeys_insertM _ _ _ h2
  · intro b
    rw [revSpec]
    have hcb := hcount b
    by_cases hb : b = waitId
    · subst hb
      rw [if_pos rfl] at hcb
      by_cases hz : countV st.waiting b - 1 = 0
      · rw [if_pos hz, lookupM_eraseM _ _ _ h2, if_pos rfl]
        have : countV (eraseM st.waiting id) b = 0 := by omega
        rw [this, if_pos rfl]
      · rw [if_neg hz, lookupM_insertM, if_pos rfl]
        have h4 : countV (eraseM st.waiting id) b = countV st.waiting b - 1 := by
          omega
        rw [h4, if_neg hz]
    · have hbn : waitId ≠ b := fun hh => hb hh.symm
      rw [if_neg hbn] at hcb
      have hcb2 : countV (eraseM st.waiting id) b = countV st.waiting b := by omega
      have hrest := h3 b
      rw [revSpec] at hrest
      by_cases hz : countV st.waiting waitId - 1 = 0
      · rw [if_pos hz, lookupM_eraseM _ _ _ h2, if_neg hb, hcb2]
        exact hrest
      · rw [if_neg hz, lookupM_insertM, if_neg hb, hcb2]
        exact hrest

/-- Claim C5.  The wait-for graph maps satisfy the accounting invariant
(`rev_wait_txn_map_[b]` equals the number of waiters `w` with
`wait_txn_map_[w] = b`, and zero-refcount keys are absent): it holds for the
empty graph, is preserved by every `IncrementWaiters` (`register_wait`) on a
fresh waiter (the source asserts `wait_txn_map_.count(id) == 0`) whatever it
returns, and by every `DecrementWaiters` (`unregister_wait`) of the recorded
edge; moreover an `IncrementWaiters` that reports a deadlock rolls back and
returns both maps exactly as they were on entry. -/
theorem graph_accounting_invariant :
    GoodGraph ⟨[], []⟩ ∧
    (∀ (st : GraphState) (id waitId depth : Nat),
        GoodGraph st → lookupM st.waiting id = none →
        GoodGraph (incrementWaiters st id waitId depth).2 ∧
          ((incrementWaiters st id waitId depth).1 = true →
            (incrementWaiters st id waitId depth).2 = st)) ∧
    (∀ (st : GraphState) (id waitId : Nat),
        GoodGraph st → lookupM st.waiting id = some waitId →
        GoodGraph (decrementWaiters st id waitId)) := by
  refine ⟨by decide, ?_, ?_⟩
  · intro st id waitId depth hg hid
    have hstate := goodGraph_register_state st id waitId hg hid
    have hroll := register_rollback st id waitId hg hid
    constructor
    · simp only [incrementWaiters]
      split
      · exact hstate
      · split
        · rw [hroll]
          exact hg
        · exact hstate
    · simp only [incrementWaiters]
      split
      · intro hh
        simp at hh
      · split
        · intro _
          exact hroll
        · intro hh
          simp at hh
  · intro st id waitId hg hid
    exact goodGraph_unregister st id waitId hg hid

/-- Witness for `graph_accounting_invariant` at concrete graphs: the empty
graph, a fresh registration on it, and unregistration of the edge `1 → 2`. -/
theorem graph_accounting_invariant_witness :
    GoodGraph ⟨[], []⟩ ∧
    GoodGraph (incrementWaiters ⟨[], []⟩ 1 2 5).2 ∧
    GoodGraph (decrementWaiters ⟨[(1, 2)], [(2, 1)]⟩ 1 2) :=
  ⟨graph_accounting_invariant.1,
   (graph_accounting_invariant.2.1 ⟨[], []⟩ 1 2 5 (by decide) (by decide)).1,
   graph_accounting_invariant.2.2 ⟨[(1, 2)], [(2, 1)]⟩ 1 2 (by decide) (by decide)⟩

theorem detectWalk_cases (w : List (Nat × Nat)) (id : Nat) :
    ∀ (fuel next : Nat), detectWalk w id next fuel = true →
      (∃ i, i < fuel ∧ chainFrom w next i = some id) ∨
      (∀ i, i < fuel → ∃ x, chainFrom w next i = some x ∧ x ≠ id) := by
  intro fuel
  induction fuel with
  | zero =>
      intro next _
      right
      intro i hi
      omega
  | succ fuel ih =>
      intro next h
      rw [detectWalk] at h
      by_cases hn : next = id
      · left
        exact ⟨0, by omega, by simp [chainFrom, hn]⟩
      · rw [if_neg hn] at h
        cases hl : lookupM w next with
        | none =>
            rw [hl] at h
            simp at h
        | some nx =>
            rw [hl] at h
            rcases ih nx h with ⟨i, hi, hc⟩ | hall
            · left
              refine ⟨i + 1, by omega, ?_⟩
              rw [chainFrom_succ w next nx i hl]
              exact hc
            · right
              intro i hi
              cases i with
              | zero => exact ⟨next, by simp [chainFrom], hn⟩
              | succ j =>
                  obtain ⟨x, hx1, hx2⟩ := hall j (by omega)
                  refine ⟨x, ?_, hx2⟩
                  rw [chainFrom_succ w next nx j hl]
                  exact hx1

/-- Claim C2.  Bounded deadlock soundness of `register_wait`
(`IncrementWaiters`): whenever it returns `true`, either a genuine cycle
containing the waiter `id` of length at most `depth` exists in the graph
formed by adding the edge `id → waitId` (so in particular, if the shortest
cycle through `id` is within the depth bound, a cycle really exists), or
the walk examined `depth` successors of `waitId` without reaching `id` and
conservatively assumed a deadlock — the permitted false positive.  In both
disjuncts every index is below `depth`: the walk never examines more than
`depth` successors. -/
theorem register_wait_deadlock_sound (st : GraphState) (id waitId depth : Nat)
    (h : (incrementWaiters st id waitId depth).1 = true) :
    (∃ n, 0 < n ∧ n ≤ depth ∧
        chainFrom (insertM st.waiting id waitId) id n = some id) ∨
    (∀ i, i < depth →
        ∃ x, chainFrom (insertM st.waiting id waitId) waitId i = some x ∧ x ≠ id) := by
  simp only [incrementWaiters] at h
  by_cases h0 : (lookupM (insertM st.rev waitId
      ((lookupM st.rev waitId).getD 0 + 1)) id).isNone = true
  · rw [if_pos h0] at h
    simp at h
  · rw [if_neg h0] at h
    by_cases hwalk : detectWalk (insertM st.waiting id waitId) id waitId depth = true
    · rcases detectWalk_cases (insertM st.waiting id waitId) id depth waitId hwalk with
        ⟨i, hi, hc⟩ | hall
      · left
        refine ⟨i + 1, by omega, by omega, ?_⟩
        have hself : lookupM (insertM st.waiting id waitId) id = some waitId := by
          rw [lookupM_insertM, if_pos rfl]
        rw [chainFrom_succ _ id waitId i hself]
        exact hc
      · right
        exact hall
    · rw [if_neg hwalk] at h
      simp at h

/-- Witness for `register_wait_deadlock_sound`: transaction 2 already waits
on 1; registering `1 → 2` closes the two-cycle and is detected. -/
theorem register_wait_deadlock_sound_witness :
    (∃ n, 0 < n ∧ n ≤ 5 ∧
        chainFrom (insertM [(2, 1)] 1 2) 1 n = some 1) ∨
    (∀ i, i < 5 →
        ∃ x, chainFrom (insertM [(2, 1)] 1 2) 2 i = some x ∧ x ≠ 1) :=
  register_wait_deadlock_sound ⟨[(2, 1)], [(1, 1)]⟩ 1 2 5 (by decide)

/-! The lock table and the acquire / release protocol. -/

/-- `LockInfo`: holder transaction ID plus absolute expiration time in
microseconds (`0` = never expires). -/
structure LockInfo where
  txn_id : Nat
  expiration_time : Nat
deriving DecidableEq, Repr

/-- The `rocksdb::Status` values produced on the modelled paths.
`timedOutCv` is the plain `TimedOut` status a condition-variable
`WaitFor` returns on deadline, distinguished from the
`TimedOut(kLockTimeout)` produced by `AcquireLocked`. -/
inductive Status where
  | ok
  | timedOutLockTimeout
  | timedOutCv
  | busyLockLimit
  | busyDeadlock
  | invalidArgument
deriving DecidableEq, Repr

/-- `Status::IsTimedOut()`. -/
def Status.isTimedOut : Status → Bool
  | .timedOutLockTimeout => true
  | .timedOutCv => true
  | _ => false

/-- `TransactionLockMgr::IsLockExpired`.  Returns
`(expired, expire_time, steal_called)` where `steal_called` records whether
`TransactionDBImpl::TryStealingExpiredTransactionLocks` was invoked — an
instrumentation field; the source performs that call as a side effect.
`now` is the value `env->NowMicros()` returned; `steal` is the
transaction-DB callback. -/
def isLockExpired (li : LockInfo) (now : Nat) (steal : Nat → Bool) :
    Bool × Nat × Bool :=
  let expired : Bool :=
    decide (0 < li.expiration_time) && decide (li.expiration_time ≤ now)
  if !expired && decide (0 < li.expiration_time) then
    (false, li.expiration_time, false)
  else
    let success := steal li.txn_id
    (expired && success, 0, true)

/-- Result record of one `AcquireLocked` call: the returned status, the new
stripe key map and lock count, the values left in the `expire_time` and
`txn_id` out-parameters (which keep their previous contents on paths that
do not write them), the clock cursor, and the steal-callback
instrumentation bit. -/
structure AcqOut where
  result : Status
  keys : List (Nat × LockInfo)
  cnt : Int
  expire : Nat
  waitId : Nat
  clk : Nat
  stealCalled : Bool
deriving DecidableEq, Repr

/-- `TransactionLockMgr::AcquireLocked` (stripe mutex held).  `max` is
`max_num_locks_`; `keys`/`cnt` the stripe key map and the lock map's
`lock_cnt`; `clock` the microsecond clock indexed by call count and `clk`
the next clock cursor (`IsLockExpired` calls `NowMicros` exactly once, on
the held-by-other path); `txli` the requester's `LockInfo`; `expireIn` and
`waitIdIn` the current contents of the two out-parameters. -/
def acquireLocked (max : Int) (keys : List (Nat × LockInfo)) (cnt : Int)
    (key : Nat) (clock : Nat → Nat) (clk : Nat) (steal : Nat → Bool)
    (txli : LockInfo) (expireIn waitIdIn : Nat) : AcqOut :=
  match lookupM keys key with
  | some li =>
      if li.txn_id ≠ txli.txn_id then
        let r := isLockExpired li (clock clk) steal
        if r.1 then
          { result := .ok, keys := insertM keys key txli, cnt := cnt,
            expire := r.2.1, waitId := waitIdIn, clk := clk + 1,
            stealCalled := r.2.2 }
        else
          { result := .timedOutLockTimeout, keys := keys, cnt := cnt,
            expire := r.2.1, waitId := li.txn_id, clk := clk + 1,
            stealCalled := r.2.2 }
      else
        { result := .ok, keys := keys, cnt := cnt, expire := expireIn,
          waitId := waitIdIn, clk := clk, stealCalled := false }
  | none =>
      if max > 0 ∧ cnt ≥ max then
        { result := .busyLockLimit, keys := keys, cnt := cnt,
          expire := expireIn, waitId := waitIdIn, clk := clk,
          stealCalled := false }
      else
        { result := .ok, keys := insertM keys key txli,
          cnt := cnt + (if max ≠ 0 then 1 else 0), expire := expireIn,
          waitId := waitIdIn, clk := clk, stealCalled := false }

/-- Every `AcquireLocked` call returns `Ok`, `TimedOut(kLockTimeout)` or
`Busy(kLockLimit)`. -/
theorem acquireLocked_result_cases (max : Int) (keys : List (Nat × LockInfo))
    (cnt : Int) (key : Nat) (clock : Nat → Nat) (clk : Nat)
    (steal : Nat → Bool) (txli : LockInfo) (expireIn waitIdIn : Nat) :
    (acquireLocked max keys cnt key clock clk steal txli expireIn waitIdIn).result
        = Status.ok ∨
    (acquireLocked max keys cnt key clock clk steal txli expireIn waitIdIn).result
        = Status.timedOutLockTimeout ∨
    (acquireLocked max keys cnt key clock clk steal txli expireIn waitIdIn).result
        = Status.busyLockLimit := by
  cases hl : lookupM keys key with
  | some li =>
      simp only [acquireLocked, hl]
      by_cases h1 : li.txn_id ≠ txli.txn_id
      · rw [if_pos h1]
        by_cases h2 : (isLockExpired li (clock clk) steal).1 = true
        · rw [if_pos h2]; left; rfl
        · rw [if_neg h2]; right; left; rfl
      · rw [if_neg h1]; left; rfl
  | none =>
      simp only [acquireLocked, hl]
      by_cases h1 : max > 0 ∧ cnt ≥ max
      · rw [if_pos h1]; right; right; rfl
      · rw [if_neg h1]; left; rfl

/-- Claim C1.  For a record held by another transaction, the record is
stolen — overwritten with the requester's `{id, expiration}` and the
attempt succeeds — if and only if the record's `expires_at` is positive,
`expires_at ≤ now` on the provided clock, and the DB callback
`try_steal_expired_transaction_locks(holder)` returns `true`; in every
other case the stripe state (key map and `lock_cnt`) is unchanged and the
attempt returns `TimedOut(kLockTimeout)`. -/
theorem steal_iff_expired_and_allowed (max : Int) (keys : List (Nat × LockInfo))
    (cnt : Int) (key : Nat) (clock : Nat → Nat) (clk : Nat)
    (steal : Nat → Bool) (txli : LockInfo) (expireIn waitIdIn : Nat)
    (li : LockInfo) (hl : lookupM keys key = some li)
    (hne : li.txn_id ≠ txli.txn_id) :
    ((acquireLocked max keys cnt key clock clk steal txli expireIn waitIdIn).result
          = Status.ok ∧
      (acquireLocked max keys cnt key clock clk steal txli expireIn waitIdIn).keys
          = insertM keys key txli
      ↔ 0 < li.expiration_time ∧ li.expiration_time ≤ clock clk ∧
        steal li.txn_id = true) ∧
    (¬(0 < li.expiration_time ∧ li.expiration_time ≤ clock clk ∧
        steal li.txn_id = true) →
      (acquireLocked max keys cnt key clock clk steal txli expireIn waitIdIn).result
          = Status.timedOutLockTimeout ∧
      (acquireLocked max keys cnt key clock clk steal txli expireIn waitIdIn).keys
          = keys ∧
      (acquireLocked max keys cnt key clock clk steal txli expireIn waitIdIn).cnt
          = cnt) := by
  have hexp : (isLockExpired li (clock clk) steal).1 = true ↔
      (0 < li.expiration_time ∧ li.expiration_time ≤ clock clk ∧
        steal li.txn_id = true) := by
    rw [isLockExpired]
    by_cases h1 : 0 < li.expiration_time
    · by_cases h2 : li.expiration_time ≤ clock clk
      · simp [h1, h2]
      · simp [h1, h2]
    · simp [h1]
  simp only [acquireLocked, hl, if_pos hne]
  constructor
  · by_cases h2 : (isLockExpired li (clock clk) steal).1 = true
    · rw [if_pos h2]
      constructor
      · intro _
        exact hexp.mp h2
      · intro _
        exact ⟨rfl, rfl⟩
    · rw [if_neg h2]
      constructor
      · intro hh
        exact absurd hh.1 (by simp)
      · intro hh
        exact absurd (hexp.mpr hh) h2
  · intro hh
    have h2 : ¬(isLockExpired li (clock clk) steal).1 = true :=
      fun hc => hh (hexp.mp hc)
    rw [if_neg h2]
    exact ⟨rfl, rfl, rfl⟩

/-- Witness for `steal_iff_expired_and_allowed`: key 7 held by transaction
2 with expiration 10, requester is transaction 1 at time 50 with a
consenting callback. -/
theorem steal_iff_expired_and_allowed_witness :
    ((acquireLocked 0 [(7, ⟨2, 10⟩)] 0 7 (fun _ => 50) 0 (fun _ => true)
          ⟨1, 0⟩ 0 0).result = Status.ok ∧
      (acquireLocked 0 [(7, ⟨2, 10⟩)] 0 7 (fun _ => 50) 0 (fun _ => true)
          ⟨1, 0⟩ 0 0).keys = insertM [(7, ⟨2, 10⟩)] 7 ⟨1, 0⟩
      ↔ 0 < (10 : Nat) ∧ (10 : Nat) ≤ 50 ∧ true = true) ∧
    (¬(0 < (10 : Nat) ∧ (10 : Nat) ≤ 50 ∧ true = true) →
      (acquireLocked 0 [(7, ⟨2, 10⟩)] 0 7 (fun _ => 50) 0 (fun _ => true)
          ⟨1, 0⟩ 0 0).result = Status.timedOutLockTimeout ∧
      (acquireLocked 0 [(7, ⟨2, 10⟩)] 0 7 (fun _ => 50) 0 (fun _ => true)
          ⟨1, 0⟩ 0 0).keys = [(7, ⟨2, 10⟩)] ∧
      (acquireLocked 0 [(7, ⟨2, 10⟩)] 0 7 (fun _ => 50) 0 (fun _ => true)
          ⟨1, 0⟩ 0 0).cnt = 0) :=
  steal_iff_expired_and_allowed 0 [(7, ⟨2, 10⟩)] 0 7 (fun _ => 50) 0
    (fun _ => true) ⟨1, 0⟩ 0 0 ⟨2, 10⟩ (by decide) (by decide)

/-- Claim C10.  A record with `expires_at == 0` held by another transaction
is never treated as expired, yet `IsLockExpired` still invokes the DB steal
callback on its holder (the `else` branch at lines 205-212 is taken because
`!expired && expiration_time > 0` is false): whatever the callback answers,
the attempt returns `TimedOut(kLockTimeout)` with `expire_time` set to `0`
and the stripe state unchanged. -/
theorem zero_expiration_never_stolen (max : Int) (keys : List (Nat × LockInfo))
    (cnt : Int) (key : Nat) (clock : Nat → Nat) (clk : Nat)
    (steal : Nat → Bool) (txli : LockInfo) (expireIn waitIdIn : Nat)
    (li : LockInfo) (hl : lookupM keys key = some li)
    (hne : li.txn_id ≠ txli.txn_id) (hz : li.expiration_time = 0) :
    (acquireLocked max keys cnt key clock clk steal txli expireIn waitIdIn).stealCalled
        = true ∧
    (acquireLocked max keys cnt key clock clk steal txli expireIn waitIdIn).result
        = Status.timedOutLockTimeout ∧
    (acquireLocked max keys cnt key clock clk steal txli expireIn waitIdIn).expire
        = 0 ∧
    (acquireLocked max keys cnt key clock clk steal txli expireIn waitIdIn).keys
        = keys ∧
    (acquireLocked max keys cnt key clock clk steal txli expireIn waitIdIn).cnt
        = cnt := by
  have hr : isLockExpired li (clock clk) steal = (false, 0, true) := by
    rw [isLockExpired]
    simp [hz]
  simp only [acquireLocked, hl, if_pos hne, hr]
  exact ⟨rfl, rfl, rfl, rfl, rfl⟩

/-- Witness for `zero_expiration_never_stolen`: key 3 held forever by
transaction 9, requested by transaction 1 under a callback that always
consents — the record still cannot be stolen. -/
theorem zero_expiration_never_stolen_witness :
    (acquireLocked 0 [(3, ⟨9, 0⟩)] 0 3 (fun _ => 100) 0 (fun _ => true)
        ⟨1, 0⟩ 0 0).stealCalled = true ∧
    (acquireLocked 0 [(3, ⟨9, 0⟩)] 0 3 (fun _ => 100) 0 (fun _ => true)
        ⟨1, 0⟩ 0 0).result = Status.timedOutLockTimeout ∧
    (acquireLocked 0 [(3, ⟨9, 0⟩)] 0 3 (fun _ => 100) 0 (fun _ => true)
        ⟨1, 0⟩ 0 0).expire = 0 ∧
    (acquireLocked 0 [(3, ⟨9, 0⟩)] 0 3 (fun _ => 100) 0 (fun _ => true)
        ⟨1, 0⟩ 0 0).keys = [(3, ⟨9, 0⟩)] ∧
    (acquireLocked 0 [(3, ⟨9, 0⟩)] 0 3 (fun _ => 100) 0 (fun _ => true)
        ⟨1, 0⟩ 0 0).cnt = 0 :=
  zero_expiration_never_stolen 0 [(3, ⟨9, 0⟩)] 0 3 (fun _ => 100) 0
    (fun _ => true) ⟨1, 0⟩ 0 0 ⟨9, 0⟩ (by decide) (by decide) (by decide)

/-- Claim C6.  With a positive lock cap, an acquire attempt on a key that is
not held fails with `Busy(kLockLimit)` exactly when `lock_cnt` has reached
`max_num_locks`, leaving the stripe untouched; otherwise it inserts the
record and increments `lock_cnt`, so a successful attempt never raises
`lock_cnt` above `max_num_locks`. -/
theorem lock_limit_cap (max : Int) (keys : List (Nat × LockInfo)) (cnt : Int)
    (key : Nat) (clock : Nat → Nat) (clk : Nat) (steal : Nat → Bool)
    (txli : LockInfo) (expireIn waitIdIn : Nat)
    (hmax : 0 < max) (hl : lookupM keys key = none) :
    ((acquireLocked max keys cnt key clock clk steal txli expireIn waitIdIn).result
          = Status.busyLockLimit ↔ max ≤ cnt) ∧
    (max ≤ cnt →
      (acquireLocked max keys cnt key clock clk steal txli expireIn waitIdIn).keys
          = keys ∧
      (acquireLocked max keys cnt key clock clk steal txli expireIn waitIdIn).cnt
          = cnt) ∧
    (cnt < max →
      (acquireLocked max keys cnt key clock clk steal txli expireIn waitIdIn).result
          = Status.ok ∧
      (acquireLocked max keys cnt key clock clk steal txli expireIn waitIdIn).keys
          = insertM keys key txli ∧
      (acquireLocked max keys cnt key clock clk steal txli expireIn waitIdIn).cnt
          = cnt + 1 ∧
      (acquireLocked max keys cnt key clock clk steal txli expireIn waitIdIn).cnt
          ≤ max) := by
  simp only [acquireLocked, hl]
  by_cases hc : max ≤ cnt
  · rw [if_pos ⟨hmax, hc⟩]
    refine ⟨by simp [hc], fun _ => ⟨rfl, rfl⟩, fun hlt => absurd hc (by omega)⟩
  · have hcond : ¬(max > 0 ∧ cnt ≥ max) := fun hh => hc hh.2
    have hne : max ≠ 0 := by omega
    rw [if_neg hcond, if_pos hne]
    refine ⟨by simp [hc], fun hge => absurd hge hc, fun hlt => ?_⟩
    exact ⟨rfl, rfl, rfl, show cnt + 1 ≤ max by omega⟩

/-- Witness for `lock_limit_cap`: cap 2, one lock currently held, fresh
key 4 — the attempt succeeds and the count rises to 2. -/
theorem lock_limit_cap_witness :
    ((acquireLocked 2 [(1, ⟨5, 0⟩)] 1 4 (fun _ => 0) 0 (fun _ => false)
          ⟨6, 0⟩ 0 0).result = Status.busyLockLimit ↔ (2 : Int) ≤ 1) ∧
    ((2 : Int) ≤ 1 →
      (acquireLocked 2 [(1, ⟨5, 0⟩)] 1 4 (fun _ => 0) 0 (fun _ => false)
          ⟨6, 0⟩ 0 0).keys = [(1, ⟨5, 0⟩)] ∧
      (acquireLocked 2 [(1, ⟨5, 0⟩)] 1 4 (fun _ => 0) 0 (fun _ => false)
          ⟨6, 0⟩ 0 0).cnt = 1) ∧
    ((1 : Int) < 2 →
      (acquireLocked 2 [(1, ⟨5, 0⟩)] 1 4 (fun _ => 0) 0 (fun _ => false)
          ⟨6, 0⟩ 0 0).result = Status.ok ∧
      (acquireLocked 2 [(1, ⟨5, 0⟩)] 1 4 (fun _ => 0) 0 (fun _ => false)
          ⟨6, 0⟩ 0 0).keys = insertM [(1, ⟨5, 0⟩)] 4 ⟨6, 0⟩ ∧
      (acquireLocked 2 [(1, ⟨5, 0⟩)] 1 4 (fun _ => 0) 0 (fun _ => false)
          ⟨6, 0⟩ 0 0).cnt = 1 + 1 ∧
      (acquireLocked 2 [(1, ⟨5, 0⟩)] 1 4 (fun _ => 0) 0 (fun _ => false)
          ⟨6, 0⟩ 0 0).cnt ≤ 2) :=
  lock_limit_cap 2 [(1, ⟨5, 0⟩)] 1 4 (fun _ => 0) 0 (fun _ => false)
    ⟨6, 0⟩ 0 0 (by decide) (by decide)

/-- One column family's lock table: `num_stripes_` fixed at construction,
the per-stripe key maps, and the `lock_cnt` counter.  `GetStripe` is
`hash(key) % num_stripes_`; the murmur hash itself is an arbitrary fixed
function, passed as the `hash` parameter below. -/
structure LockMapM where
  numStripes : Nat
  stripes : List (List (Nat × LockInfo))
  cnt : Int
deriving DecidableEq, Repr

/-- The stripe index `LockMap::GetStripe` selects for `key`. -/
def stripeIdx (hash : Nat → Nat) (lm : LockMapM) (key : Nat) : Nat :=
  hash key % lm.numStripes

/-- The body of `TransactionLockMgr::UnLock` (single key) once the lock map
has been resolved: under the stripe mutex, erase the entry iff it exists
and is held by `txnId`, maintaining `lock_cnt` only when
`max_num_locks_ > 0`; any other situation is a silent no-op (the source
only asserts, in debug builds, that the transaction has expired).  The
function is total and returns the new map: release surfaces no error. -/
def unLockInMap (max : Int) (hash : Nat → Nat) (txnId : Nat) (lm : LockMapM)
    (key : Nat) : LockMapM :=
  let s := stripeIdx hash lm key
  let stripe := lm.stripes.getD s []
  if (lookupM stripe key).map LockInfo.txn_id = some txnId then
    { lm with stripes := lm.stripes.set s (eraseM stripe key),
              cnt := if max > 0 then lm.cnt - 1 else lm.cnt }
  else lm

/-- `TransactionLockMgr::UnLock` (single key) including the
`GetLockMap` resolution: when the column family is gone the call returns
silently; otherwise it updates that column family's lock map.  `reg`
models the `lock_maps_` registry. -/
def unLockKey (max : Int) (hash : Nat → Nat) (reg : List (Nat × LockMapM))
    (txnId cf key : Nat) : List (Nat × LockMapM) :=
  match lookupM reg cf with
  | none => reg
  | some lm => insertM reg cf (unLockInMap max hash txnId lm key)

/-- Claim C3 (code bug).  With `max_num_locks_ = -1` — which the spec and
the source's own comment on `lock_cnt` ("Only maintained if
TransactionLockMgr::max_num_locks_ is positive.") say disables lock-count
maintenance — a successful insert still increments `lock_cnt`, because
line 431 tests `if (max_num_locks_)`, i.e. nonzero rather than positive,
while `UnLock` decrements only when `max_num_locks_ > 0`: the counter
drifts up by one across an acquire/release pair.  (The cap itself is
disabled: the `Busy(kLockLimit)` check does require `max_num_locks_ > 0`.) -/
theorem lock_cnt_drifts_when_max_negative :
    (acquireLocked (-1) [] 0 0 (fun _ => 0) 0 (fun _ => false) ⟨1, 0⟩ 0 0).result
        = Status.ok ∧
    (acquireLocked (-1) [] 0 0 (fun _ => 0) 0 (fun _ => false) ⟨1, 0⟩ 0 0).cnt
        = 1 ∧
    unLockInMap (-1) (fun _ => 0) 1
        ⟨1, [(acquireLocked (-1) [] 0 0 (fun _ => 0) 0 (fun _ => false)
              ⟨1, 0⟩ 0 0).keys], 1⟩ 0
      = ⟨1, [[]], 1⟩ := by
  decide

/-- Claim C7.  `unlock(t, cf, k)` removes the stripe's entry for `k` iff
the entry exists and its holder is `t`; when the key is absent, held by
another transaction, or the column family has been dropped, the whole
registry is returned unchanged.  On removal only the addressed column
family changes: its stripe loses exactly the binding of `k` and `lock_cnt`
is decremented exactly when the cap is enabled.  The operation is total
(surfaces no error). -/
theorem unlock_removes_iff_owner (max : Int) (hash : Nat → Nat)
    (reg : List (Nat × LockMapM)) (t cf key : Nat) (hreg : SortedKeys reg) :
    (lookupM reg cf = none → unLockKey max hash reg t cf key = reg) ∧
    (∀ lm, lookupM reg cf = some lm →
      SortedKeys (lm.stripes.getD (stripeIdx hash lm key) []) →
      ((lookupM (lm.stripes.getD (stripeIdx hash lm key) []) key = none →
          unLockKey max hash reg t cf key = reg) ∧
       (∀ li, lookupM (lm.stripes.getD (stripeIdx hash lm key) []) key = some li →
          li.txn_id ≠ t → unLockKey max hash reg t cf key = reg) ∧
       (∀ li, lookupM (lm.stripes.getD (stripeIdx hash lm key) []) key = some li →
          li.txn_id = t →
          lookupM (unLockKey max hash reg t cf key) cf =
            some { lm with
              stripes := lm.stripes.set (stripeIdx hash lm key)
                (eraseM (lm.stripes.getD (stripeIdx hash lm key) []) key),
              cnt := if max > 0 then lm.cnt - 1 else lm.cnt } ∧
          (∀ cf2, cf2 ≠ cf →
            lookupM (unLockKey max hash reg t cf key) cf2 = lookupM reg cf2) ∧
          (∀ k2, lookupM
              (eraseM (lm.stripes.getD (stripeIdx hash lm key) []) key) k2 =
            if k2 = key then none
            else lookupM (lm.stripes.getD (stripeIdx hash lm key) []) k2)))) := by
  constructor
  · intro hn
    simp only [unLockKey, hn]
  · intro lm hsome hstripe
    refine ⟨?_, ?_, ?_⟩
    · intro hkn
      simp only [unLockKey, hsome, unLockInMap, hkn]
      rw [if_neg (by simp)]
      exact insertM_eq_self reg cf lm hreg hsome
    · intro li hks hown
      simp only [unLockKey, hsome, unLockInMap, hks]
      rw [if_neg (by simp [hown])]
      exact insertM_eq_self reg cf lm hreg hsome
    · intro li hks hown
      simp only [unLockKey, hsome, unLockInMap, hks]
      rw [if_pos (by simp [hown])]
      refine ⟨?_, ?_, ?_⟩
      · rw [lookupM_insertM, if_pos rfl]
      · intro cf2 hcf2
        rw [lookupM_insertM, if_neg hcf2]
      · intro k2
        exact lookupM_eraseM _ key k2 hstripe

/-- Witness for `unlock_removes_iff_owner`: one column family with one
stripe holding key 4 for transaction 9; transaction 9 releases it. -/
theorem unlock_removes_iff_owner_witness :
    lookupM (unLockKey 0 (fun k => k) [(2, ⟨1, [[(4, ⟨9, 0⟩)]], 0⟩)] 9 2 4) 2 =
      some ⟨1, [[]], 0⟩ ∧
    (∀ cf2, cf2 ≠ 2 →
      lookupM (unLockKey 0 (fun k => k) [(2, ⟨1, [[(4, ⟨9, 0⟩)]], 0⟩)] 9 2 4) cf2 =
        lookupM [(2, ⟨1, [[(4, ⟨9, 0⟩)]], 0⟩)] cf2) := by
  have h := (unlock_removes_iff_owner 0 (fun k => k)
      [(2, ⟨1, [[(4, ⟨9, 0⟩)]], 0⟩)] 9 2 4 (by decide)).2
      ⟨1, [[(4, ⟨9, 0⟩)]], 0⟩ (by decide) (by decide)
  obtain ⟨h1, h2, h3⟩ := h.2.2 ⟨9, 0⟩ (by decide) (by decide)
  exact ⟨h1, h2⟩

/-! The `AcquireWithTimeout` retry loop.

The loop runs under the stripe mutex.  Everything it can observe or mutate
is gathered in `LoopSt`; the condition-variable outcomes and the clock are
oracles indexed by call count.  `attempts` counts `AcquireLocked` calls and
`cvWaits` counts condition-variable waits — instrumentation recording what
the source does as side effects.  The C++ `do … while` loop has no fuel:
`fuel` bounds the number of iterations the model unfolds, and running out
of fuel returns the current result unchanged (every claim proved about the
loop holds for all fuel values). -/

/-- The transaction attributes `AcquireWithTimeout` reads: `GetID`,
`GetExpirationTime`, `GetLockTimeout`, `IsDeadlockDetect`,
`GetDeadlockDetectDepth`. -/
structure TxnP where
  id : Nat
  expiration : Nat
  timeout : Int
  detect : Bool
  depth : Nat
deriving DecidableEq, Repr

/-- Environment oracles: the microsecond clock indexed by `NowMicros` call
count, and for each condition-variable wait (by wait count) whether the
timed `WaitFor` ended by timeout (`true`) or by signal / spurious wake
(`false`).  Untimed `Wait` always returns OK. -/
structure Oracle where
  clock : Nat → Nat
  cvTimedOut : Nat → Bool

/-- State threaded through `AcquireWithTimeout`: the stripe's key map and
the lock map's `lock_cnt`, the wait-for graph, the published
`SetWaitingTxn` value (`(wait_id, cf)` or `none`), the instrumentation
counters, and the clock cursor. -/
structure LoopSt where
  keys : List (Nat × LockInfo)
  cnt : Int
  graph : GraphState
  waitingPub : Option (Nat × Nat)
  attempts : Nat
  cvWaits : Nat
  clk : Nat
deriving DecidableEq, Repr

/-- The `cv_end_time` selection at the top of each loop iteration
(lines 281-290): the held lock's expiration hint when it is known and
sooner than the caller's deadline, else the deadline when the timeout is
nonnegative, else `-1` (wait indefinitely). -/
def cvEndTime (timeout : Int) (endTime expire : Nat) : Int :=
  if 0 < expire ∧ (timeout < 0 ∨ (0 < timeout ∧ expire < endTime)) then
    (expire : Int)
  else if 0 ≤ timeout then (endTime : Int) else -1

/-- The condition-variable phase of one loop iteration (lines 308-317):
returns the status the wait leaves in `result`, the new clock cursor and
the new wait count.  `cvEnd < 0` is an untimed `Wait` (returns OK);
otherwise `NowMicros` is consulted and a timed `WaitFor` happens only if
the deadline is still ahead — when it already passed, no wait occurs and
`result` keeps its previous value. -/
def cvPhase (orc : Oracle) (result : Status) (cvEnd : Int)
    (clk cvWaits : Nat) : Status × Nat × Nat :=
  if cvEnd < 0 then (Status.ok, clk, cvWaits + 1)
  else if (orc.clock clk : Int) < cvEnd then
    ((if orc.cvTimedOut cvWaits then Status.timedOutCv else Status.ok),
     clk + 1, cvWaits + 1)
  else (result, clk + 1, cvWaits)

/-- One-to-many iterations of the `do … while` retry loop of
`TransactionLockMgr::AcquireWithTimeout` (lines 279-337), entered with the
failed `result` of the previous attempt and the current contents of the
`expire_time_hint` and `wait_id` variables (which persist across
iterations and are only overwritten on the paths that write them). -/
def awLoop (max : Int) (txn : TxnP) (txli : LockInfo) (cf key : Nat)
    (steal : Nat → Bool) (orc : Oracle) (endTime : Nat) :
    Nat → Status → Nat → Nat → LoopSt → Status × LoopSt
  | 0, result, _, _, st => (result, st)
  | fuel + 1, result, expire, waitId, st =>
      -- wait_id != 0: deadlock detection, then SetWaitingTxn
      if txn.detect ∧ waitId ≠ 0 ∧
          (incrementWaiters st.graph txn.id waitId txn.depth).1 = true then
        -- Busy(kDeadlock): return immediately (the mutex is released)
        (Status.busyDeadlock,
         { st with graph := (incrementWaiters st.graph txn.id waitId txn.depth).2 })
      else
        let g1 := if waitId ≠ 0 ∧ txn.detect then
            (incrementWaiters st.graph txn.id waitId txn.depth).2
          else st.graph
        let pub1 := if waitId ≠ 0 then some (waitId, cf) else st.waitingPub
        -- the CV wait (or skipped wait when the deadline already passed)
        let p := cvPhase orc result (cvEndTime txn.timeout endTime expire)
            st.clk st.cvWaits
        -- wait_id != 0: clear SetWaitingTxn, DecrementWaiters
        let g2 := if waitId ≠ 0 ∧ txn.detect then
            decrementWaiters g1 txn.id waitId else g1
        let pub2 := if waitId ≠ 0 then none else pub1
        let st2 : LoopSt :=
          { st with graph := g2, waitingPub := pub2, clk := p.2.1,
                    cvWaits := p.2.2 }
        if p.1 = Status.ok ∨ p.1.isTimedOut = true then
          let a := acquireLocked max st2.keys st2.cnt key orc.clock st2.clk
              steal txli expire waitId
          let st3 : LoopSt :=
            { st2 with keys := a.keys, cnt := a.cnt, clk := a.clk,
                       attempts := st2.attempts + 1 }
          if a.result ≠ Status.ok ∧ p.1.isTimedOut = false then
            awLoop max txn txli cf key steal orc endTime fuel
              a.result a.expire a.waitId st3
          else (a.result, st3)
        else
          if p.1 ≠ Status.ok ∧ p.1.isTimedOut = false then
            awLoop max txn txli cf key steal orc endTime fuel
              p.1 expire waitId st2
          else (p.1, st2)

/-- `TransactionLockMgr::AcquireWithTimeout`: take the stripe mutex
(modelled as always succeeding), make the first `AcquireLocked` attempt,
and enter the retry loop only when that attempt failed and the lock
timeout is nonzero. -/
def acquireWithTimeout (max : Int) (txn : TxnP) (txli : LockInfo)
    (cf key : Nat) (steal : Nat → Bool) (orc : Oracle) (fuel : Nat)
    (keys0 : List (Nat × LockInfo)) (cnt0 : Int) (g0 : GraphState) :
    Status × LoopSt :=
  let clk1 : Nat := if 0 < txn.timeout then 1 else 0
  let endTime : Nat :=
    if 0 < txn.timeout then orc.clock 0 + txn.timeout.toNat else 0
  let a := acquireLocked max keys0 cnt0 key orc.clock clk1 steal txli 0 0
  let st1 : LoopSt := ⟨a.keys, a.cnt, g0, none, 1, 0, a.clk⟩
  if a.result = Status.ok ∨ txn.timeout = 0 then (a.result, st1)
  else awLoop max txn txli cf key steal orc endTime fuel
    a.result a.expire a.waitId st1

/-- Claim C8.  For a `try_lock` whose transaction has `timeout_us == 0`,
`AcquireWithTimeout` makes exactly one `AcquireLocked` attempt
(`attempts = 1`), never waits on the stripe condition variable
(`cvWaits = 0`), never touches the wait-for graph or `SetWaitingTxn`, and
returns that single attempt's status — which is `Ok`,
`TimedOut(kLockTimeout)` or `Busy(kLockLimit)` — without entering the
retry loop. -/
theorem zero_timeout_single_attempt (max : Int) (txn : TxnP) (txli : LockInfo)
    (cf key : Nat) (steal : Nat → Bool) (orc : Oracle) (fuel : Nat)
    (keys0 : List (Nat × LockInfo)) (cnt0 : Int) (g0 : GraphState)
    (h : txn.timeout = 0) :
    acquireWithTimeout max txn txli cf key steal orc fuel keys0 cnt0 g0 =
      ((acquireLocked max keys0 cnt0 key orc.clock 0 steal txli 0 0).result,
       ⟨(acquireLocked max keys0 cnt0 key orc.clock 0 steal txli 0 0).keys,
        (acquireLocked max keys0 cnt0 key orc.clock 0 steal txli 0 0).cnt,
        g0, none, 1, 0,
        (acquireLocked max keys0 cnt0 key orc.clock 0 steal txli 0 0).clk⟩) ∧
    ((acquireLocked max keys0 cnt0 key orc.clock 0 steal txli 0 0).result
        = Status.ok ∨
     (acquireLocked max keys0 cnt0 key orc.clock 0 steal txli 0 0).result
        = Status.timedOutLockTimeout ∨
     (acquireLocked max keys0 cnt0 key orc.clock 0 steal txli 0 0).result
        = Status.busyLockLimit) := by
  constructor
  · have h0 : ¬(0 : Int) < 0 := by omega
    simp only [acquireWithTimeout, h, if_neg h0]
    rw [if_pos (Or.inr trivial)]
  · exact acquireLocked_result_cases max keys0 cnt0 key orc.clock 0 steal
      txli 0 0

/-- Witness for `zero_timeout_single_attempt`: transaction 1 with zero
lock timeout attempting key 5 on an empty stripe. -/
theorem zero_timeout_single_attempt_witness :
    acquireWithTimeout 0 ⟨1, 0, 0, false, 0⟩ ⟨1, 0⟩ 0 5 (fun _ => false)
        ⟨fun _ => 0, fun _ => false⟩ 3 [] 0 ⟨[], []⟩ =
      ((acquireLocked 0 [] 0 5 (fun _ => 0) 0 (fun _ => false) ⟨1, 0⟩ 0 0).result,
       ⟨(acquireLocked 0 [] 0 5 (fun _ => 0) 0 (fun _ => false) ⟨1, 0⟩ 0 0).keys,
        (acquireLocked 0 [] 0 5 (fun _ => 0) 0 (fun _ => false) ⟨1, 0⟩ 0 0).cnt,
        ⟨[], []⟩, none, 1, 0,
        (acquireLocked 0 [] 0 5 (fun _ => 0) 0 (fun _ => false) ⟨1, 0⟩ 0 0).clk⟩) ∧
    ((acquireLocked 0 [] 0 5 (fun _ => 0) 0 (fun _ => false) ⟨1, 0⟩ 0 0).result
        = Status.ok ∨
     (acquireLocked 0 [] 0 5 (fun _ => 0) 0 (fun _ => false) ⟨1, 0⟩ 0 0).result
        = Status.timedOutLockTimeout ∨
     (acquireLocked 0 [] 0 5 (fun _ => 0) 0 (fun _ => false) ⟨1, 0⟩ 0 0).result
        = Status.busyLockLimit) :=
  zero_timeout_single_attempt 0 ⟨1, 0, 0, false, 0⟩ ⟨1, 0⟩ 0 5 (fun _ => false)
    ⟨fun _ => 0, fun _ => false⟩ 3 [] 0 ⟨[], []⟩ (by decide)

theorem acquireLocked_fresh_not_ok (max : Int) (keys : List (Nat × LockInfo))
    (cnt : Int) (key : Nat) (clock : Nat → Nat) (clk : Nat)
    (steal : Nat → Bool) (txli : LockInfo) (eIn wIn : Nat)
    (hf : lookupM keys key = none)
    (hres : (acquireLocked max keys cnt key clock clk steal txli eIn wIn).result
      ≠ Status.ok) :
    acquireLocked max keys cnt key clock clk steal txli eIn wIn =
      ⟨Status.busyLockLimit, keys, cnt, eIn, wIn, clk, false⟩ := by
  simp only [acquireLocked, hf] at hres ⊢
  by_cases hc : max > 0 ∧ cnt ≥ max
  · rw [if_pos hc]
  · rw [if_neg hc] at hres ⊢
    exact absurd rfl hres

theorem acquireLocked_fresh_ok (max : Int) (keys : List (Nat × LockInfo))
    (cnt : Int) (key : Nat) (clock : Nat → Nat) (clk : Nat)
    (steal : Nat → Bool) (txli : LockInfo) (eIn wIn : Nat)
    (hf : lookupM keys key = none)
    (hres : (acquireLocked max keys cnt key clock clk steal txli eIn wIn).result
      = Status.ok) :
    acquireLocked max keys cnt key clock clk steal txli eIn wIn =
      ⟨Status.ok, insertM keys key txli,
       cnt + (if max ≠ 0 then 1 else 0), eIn, wIn, clk, false⟩ := by
  simp only [acquireLocked, hf] at hres ⊢
  by_cases hc : max > 0 ∧ cnt ≥ max
  · rw [if_pos hc] at hres
    exact Status.noConfusion hres
  · rw [if_neg hc]

/-- Loop invariant used for claim C4: when the requested key is absent
from the stripe, every failed attempt leaves the stripe and the count
untouched and an eventual success is exactly one fresh insert (counting
only when the cap is nonzero). -/
theorem awLoop_fresh (max : Int) (txn : TxnP) (txli : LockInfo) (cf key : Nat)
    (steal : Nat → Bool) (orc : Oracle) (endTime : Nat)
    (stripe0 : List (Nat × LockInfo)) (cnt0 : Int)
    (hf : lookupM stripe0 key = none) :
    ∀ (fuel : Nat) (result : Status) (expire waitId : Nat) (g : GraphState)
      (pub : Option (Nat × Nat)) (att cvw ck : Nat),
      result ≠ Status.ok →
      (((awLoop max txn txli cf key steal orc endTime fuel result expire waitId
            ⟨stripe0, cnt0, g, pub, att, cvw, ck⟩).1 = Status.ok →
        (awLoop max txn txli cf key steal orc endTime fuel result expire waitId
            ⟨stripe0, cnt0, g, pub, att, cvw, ck⟩).2.keys
          = insertM stripe0 key txli ∧
        (awLoop max txn txli cf key steal orc endTime fuel result expire waitId
            ⟨stripe0, cnt0, g, pub, att, cvw, ck⟩).2.cnt
          = cnt0 + (if max ≠ 0 then 1 else 0)) ∧
       ((awLoop max txn txli cf key steal orc endTime fuel result expire waitId
            ⟨stripe0, cnt0, g, pub, att, cvw, ck⟩).1 ≠ Status.ok →
        (awLoop max txn txli cf key steal orc endTime fuel result expire waitId
            ⟨stripe0, cnt0, g, pub, att, cvw, ck⟩).2.keys = stripe0 ∧
        (awLoop max txn txli cf key steal orc endTime fuel result expire waitId
            ⟨stripe0, cnt0, g, pub, att, cvw, ck⟩).2.cnt = cnt0)) := by
  intro fuel
  induction fuel with
  | zero =>
      intro result expire waitId g pub att cvw ck hr
      rw [awLoop]
      exact ⟨fun hok => absurd hok hr, fun _ => ⟨rfl, rfl⟩⟩
  | succ fuel ih =>
      intro result expire waitId g pub att cvw ck hr
      simp only [awLoop]
      by_cases hd : txn.detect ∧ waitId ≠ 0 ∧
          (incrementWaiters g txn.id waitId txn.depth).1 = true
      · rw [if_pos hd]
        exact ⟨fun hok => Status.noConfusion hok, fun _ => ⟨rfl, rfl⟩⟩
      · rw [if_neg hd]
        by_cases hcv : (cvPhase orc result (cvEndTime txn.timeout endTime expire)
              ck cvw).1 = Status.ok ∨
            (cvPhase orc result (cvEndTime txn.timeout endTime expire)
              ck cvw).1.isTimedOut = true
        · rw [if_pos hcv]
          by_cases hok : (acquireLocked max stripe0 cnt0 key orc.clock
              (cvPhase orc result (cvEndTime txn.timeout endTime expire)
                ck cvw).2.1 steal txli expire waitId).result = Status.ok
          · have ha := acquireLocked_fresh_ok max stripe0 cnt0 key orc.clock
                (cvPhase orc result (cvEndTime txn.timeout endTime expire)
                  ck cvw).2.1 steal txli expire waitId hf hok
            rw [if_neg (by rw [ha]; intro hh; exact hh.1 rfl)]
            rw [ha]
            exact ⟨fun _ => ⟨rfl, rfl⟩, fun hne => absurd rfl hne⟩
          · have ha := acquireLocked_fresh_not_ok max stripe0 cnt0 key orc.clock
                (cvPhase orc result (cvEndTime txn.timeout endTime expire)
                  ck cvw).2.1 steal txli expire waitId hf hok
            by_cases hto : (cvPhase orc result
                (cvEndTime txn.timeout endTime expire) ck cvw).1.isTimedOut = false
            · rw [if_pos ⟨by rw [ha]; exact fun hh => Status.noConfusion hh, hto⟩, ha]
              exact ih Status.busyLockLimit expire waitId
                  _ _ _ _ _ (fun hh => Status.noConfusion hh)
            · rw [if_neg (fun hh => hto hh.2), ha]
              exact ⟨fun hok2 => Status.noConfusion hok2, fun _ => ⟨rfl, rfl⟩⟩
        · rw [if_neg hcv]
          have hne : (cvPhase orc result (cvEndTime txn.timeout endTime expire)
              ck cvw).1 ≠ Status.ok := fun hh => hcv (Or.inl hh)
          by_cases hto : (cvPhase orc result
              (cvEndTime txn.timeout endTime expire) ck cvw).1.isTimedOut = false
          · rw [if_pos ⟨hne, hto⟩]
            exact ih _ expire waitId _ _ _ _ _ hne
          · rw [if_neg (fun hh => hto hh.2)]
            exact ⟨fun hok => absurd hok hne, fun _ => ⟨rfl, rfl⟩⟩

/-- `AcquireWithTimeout` on a key absent from its stripe: success means
the stripe gained exactly the requester's record (with the count bump when
the cap is in use), failure leaves stripe and count untouched. -/
theorem acquireWithTimeout_fresh (max : Int) (txn : TxnP) (txli : LockInfo)
    (cf key : Nat) (steal : Nat → Bool) (orc : Oracle) (fuel : Nat)
    (keys0 : List (Nat × LockInfo)) (cnt0 : Int) (g0 : GraphState)
    (hf : lookupM keys0 key = none) :
    (((acquireWithTimeout max txn txli cf key steal orc fuel keys0 cnt0 g0).1
          = Status.ok →
      (acquireWithTimeout max txn txli cf key steal orc fuel keys0 cnt0 g0).2.keys
          = insertM keys0 key txli ∧
      (acquireWithTimeout max txn txli cf key steal orc fuel keys0 cnt0 g0).2.cnt
          = cnt0 + (if max ≠ 0 then 1 else 0)) ∧
     ((acquireWithTimeout max txn txli cf key steal orc fuel keys0 cnt0 g0).1
          ≠ Status.ok →
      (acquireWithTimeout max txn txli cf key steal orc fuel keys0 cnt0 g0).2.keys
          = keys0 ∧
      (acquireWithTimeout max txn txli cf key steal orc fuel keys0 cnt0 g0).2.cnt
          = cnt0)) := by
  simp only [acquireWithTimeout]
  by_cases hok : (acquireLocked max keys0 cnt0 key orc.clock
      (if 0 < txn.timeout then 1 else 0) steal txli 0 0).result = Status.ok
  · rw [if_pos (Or.inl hok)]
    have ha := acquireLocked_fresh_ok max keys0 cnt0 key orc.clock
      (if 0 < txn.timeout then 1 else 0) steal txli 0 0 hf hok
    rw [ha]
    exact ⟨fun _ => ⟨rfl, rfl⟩, fun hne => absurd rfl hne⟩
  · have ha := acquireLocked_fresh_not_ok max keys0 cnt0 key orc.clock
      (if 0 < txn.timeout then 1 else 0) steal txli 0 0 hf hok
    by_cases hz : txn.timeout = 0
    · rw [if_pos (Or.inr hz), ha]
      exact ⟨fun hok2 => Status.noConfusion hok2, fun _ => ⟨rfl, rfl⟩⟩
    · rw [if_neg (fun hh => hh.elim hok hz), ha]
      exact awLoop_fresh max txn txli cf key steal orc _ keys0 cnt0 hf fuel
        Status.busyLockLimit 0 0 g0 none 1 0 _
        (fun hh => Status.noConfusion hh)

/-- `TransactionLockMgr::TryLock` once `GetLockMap` has resolved the lock
map: hash the key to its stripe, build the requester's `LockInfo` from the
transaction, run `AcquireWithTimeout`, and write the stripe and `lock_cnt`
back into the lock map. -/
def tryLock (max : Int) (hash : Nat → Nat) (txn : TxnP) (lm : LockMapM)
    (cf key : Nat) (steal : Nat → Bool) (orc : Oracle) (fuel : Nat)
    (g0 : GraphState) : Status × LockMapM × GraphState :=
  let s := stripeIdx hash lm key
  let stripe := lm.stripes.getD s []
  let r := acquireWithTimeout max txn ⟨txn.id, txn.expiration⟩ cf key steal
      orc fuel stripe lm.cnt g0
  (r.1,
   { lm with stripes := lm.stripes.set s r.2.keys, cnt := r.2.cnt },
   r.2.graph)

theorem getD_set_self {α : Type} (l : List α) (i : Nat) (a d : α)
    (h : i < l.length) : (l.set i a).getD i d = a := by
  induction l generalizing i with
  | nil => simp at h
  | cons x t ih =>
      cases i with
      | zero => rfl
      | succ j =>
          have hj : j < t.length := by simpa using h
          simpa [List.set, List.getD_cons_succ] using ih j hj

theorem set_getD_self {α : Type} (l : List α) (i : Nat) (d : α)
    (h : i < l.length) : l.set i (l.getD i d) = l := by
  induction l generalizing i with
  | nil => rfl
  | cons x t ih =>
      cases i with
      | zero => rfl
      | succ j =>
          have hj : j < t.length := by simpa using h
          simp only [List.getD_cons_succ, List.set]
          rw [ih j hj]

/-- Counterexample to claim C4 as stated: transaction 1 already holds
key 5, so `try_lock` succeeds re-entrantly without changing the map, and
the immediately following `unlock` erases the pre-existing record — the
lock map is not restored to its prior state. -/
theorem try_lock_unlock_roundtrip_cex :
    (tryLock 0 (fun _ => 0) ⟨1, 0, 0, false, 0⟩ ⟨1, [[(5, ⟨1, 0⟩)]], 0⟩ 1 5
        (fun _ => false) ⟨fun _ => 0, fun _ => false⟩ 2 ⟨[], []⟩).1
      = Status.ok ∧
    unLockInMap 0 (fun _ => 0) 1
        (tryLock 0 (fun _ => 0) ⟨1, 0, 0, false, 0⟩ ⟨1, [[(5, ⟨1, 0⟩)]], 0⟩ 1 5
          (fun _ => false) ⟨fun _ => 0, fun _ => false⟩ 2 ⟨[], []⟩).2.1 5
      ≠ ⟨1, [[(5, ⟨1, 0⟩)]], 0⟩ := by
  decide

/-- Releasing a record that was just freshly inserted into stripe `i`
restores the lock map exactly (nonnegative cap). -/
theorem unlock_after_fresh_insert (max : Int) (hash : Nat → Nat)
    (t e key N : Nat) (stripes : List (List (Nat × LockInfo))) (cnt : Int)
    (hmax : 0 ≤ max)
    (hs : hash key % N < stripes.length)
    (hf : lookupM (stripes.getD (hash key % N) []) key = none) :
    unLockInMap max hash t
      ⟨N, stripes.set (hash key % N)
            (insertM (stripes.getD (hash key % N) []) key ⟨t, e⟩),
       cnt + (if max ≠ 0 then 1 else 0)⟩ key = ⟨N, stripes, cnt⟩ := by
  simp only [unLockInMap, stripeIdx]
  rw [getD_set_self _ _ _ _ hs, lookupM_insertM, if_pos rfl]
  rw [if_pos (show Option.map LockInfo.txn_id
    (some (⟨t, e⟩ : LockInfo)) = some t from rfl)]
  rw [eraseM_insertM _ _ _ hf]
  rw [List.set_set, set_getD_self _ _ _ hs]
  by_cases hzero : max = 0
  · rw [if_neg (by omega), if_neg (fun hh => hh hzero)]
    simp
  · rw [if_pos (by omega), if_pos hzero]
    simp

/-- Claim C4 (amended).  `try_lock(t, k)` followed immediately by
`unlock(t, k)` restores the lock map — every stripe's key map and
`lock_cnt` — exactly, provided `k` was not already present in its stripe
(so the success is a fresh insert, not a re-entrant hit or an expiration
steal, which erase the pre-existing record) and `max_num_locks ≥ 0` (with
a negative cap the insert increments `lock_cnt` but the erase does not
decrement it; `lock_cnt_drifts_when_max_negative`). -/
theorem try_lock_unlock_roundtrip (max : Int) (hash : Nat → Nat) (txn : TxnP)
    (lm : LockMapM) (cf key : Nat) (steal : Nat → Bool) (orc : Oracle)
    (fuel : Nat) (g0 : GraphState)
    (hmax : 0 ≤ max)
    (hs : stripeIdx hash lm key < lm.stripes.length)
    (hf : lookupM (lm.stripes.getD (stripeIdx hash lm key) []) key = none)
    (hok : (tryLock max hash txn lm cf key steal orc fuel g0).1 = Status.ok) :
    unLockInMap max hash txn.id
      (tryLock max hash txn lm cf key steal orc fuel g0).2.1 key = lm := by
  obtain ⟨N, stripes, cnt⟩ := lm
  have hfr := acquireWithTimeout_fresh max txn ⟨txn.id, txn.expiration⟩ cf key
    steal orc fuel (stripes.getD (stripeIdx hash ⟨N, stripes, cnt⟩ key) []) cnt
    g0 hf
  simp only [tryLock] at hok ⊢
  obtain ⟨hkeys, hcnt⟩ := hfr.1 hok
  rw [hkeys, hcnt]
  exact unlock_after_fresh_insert max hash txn.id txn.expiration key N stripes
    cnt hmax hs hf

/-- Witness for `try_lock_unlock_roundtrip`: transaction 1 freshly locks
key 5 in an empty one-stripe map with the cap disabled, then unlocks it. -/
theorem try_lock_unlock_roundtrip_witness :
    unLockInMap 0 (fun _ => 0) 1
      (tryLock 0 (fun _ => 0) ⟨1, 0, 0, false, 0⟩ ⟨1, [[]], 0⟩ 1 5
        (fun _ => false) ⟨fun _ => 0, fun _ => false⟩ 2 ⟨[], []⟩).2.1 5
      = ⟨1, [[]], 0⟩ :=
  try_lock_unlock_roundtrip 0 (fun _ => 0) ⟨1, 0, 0, false, 0⟩ ⟨1, [[]], 0⟩ 1 5
    (fun _ => false) ⟨fun _ => 0, fun _ => false⟩ 2 ⟨[], []⟩
    (by decide) (by decide) (by decide) (by decide)

/-! Batch release (`UnLock` over a `TransactionKeyMap`). -/

/-- The inner loop of batch `UnLock` (lines 517-534): release, inside one
stripe, every listed key the transaction owns, maintaining `lock_cnt` when
the cap is enabled. -/
def unlockKeysInStripe (txnId : Nat) (max : Int) :
    List Nat → List (Nat × LockInfo) → Int → List (Nat × LockInfo) × Int
  | [], stripe, cnt => (stripe, cnt)
  | k :: ks, stripe, cnt =>
      if (lookupM stripe k).map LockInfo.txn_id = some txnId then
        unlockKeysInStripe txnId max ks (eraseM stripe k)
          (if max > 0 then cnt - 1 else cnt)
      else unlockKeysInStripe txnId max ks stripe cnt

/-- Batch `UnLock` for one column family (lines 496-540): bucket the keys
by stripe, then per stripe take the mutex once, erase the owned entries
and broadcast the stripe's condition variable.  Returns the updated lock
map and the list of notified stripe indices.  `keys_by_stripe` is an
unordered container whose iteration order is unspecified in the source;
the model visits buckets in first-appearance order. -/
def unLockCf (max : Int) (hash : Nat → Nat) (txnId : Nat) (lm : LockMapM)
    (ks : List Nat) : LockMapM × List Nat :=
  let buckets := (ks.map fun k => hash k % lm.numStripes).dedup
  buckets.foldl
    (fun acc s =>
      let stripe := acc.1.stripes.getD s []
      let ksS := ks.filter fun k => hash k % acc.1.numStripes == s
      let r := unlockKeysInStripe txnId max ksS stripe acc.1.cnt
      (⟨acc.1.numStripes, acc.1.stripes.set s r.1, r.2⟩, acc.2 ++ [s]))
    (lm, [])

/-- Batch `TransactionLockMgr::UnLock` over the whole key map
(lines 480-542): for each column family in iteration order resolve its
lock map; when a column family has been dropped the source executes
`return` from inside the loop — the whole batch stops at once.  The second
component accumulates the `(cf, stripe)` broadcast notifications. -/
def unLockBatch (max : Int) (hash : Nat → Nat) (txnId : Nat) :
    List (Nat × List Nat) → List (Nat × LockMapM) × List (Nat × Nat) →
      List (Nat × LockMapM) × List (Nat × Nat)
  | [], acc => acc
  | (cf, ks) :: rest, acc =>
      match lookupM acc.1 cf with
      | none => acc
      | some lm =>
          unLockBatch max hash txnId rest
            (insertM acc.1 cf (unLockCf max hash txnId lm ks).1,
             acc.2 ++ (unLockCf max hash txnId lm ks).2.map fun s => (cf, s))

/-- Claim C9.  If the lock-map lookup fails for some column family in the
middle of a batch unlock (that column family was removed), the whole batch
returns immediately: the registry is left exactly as after processing the
preceding column families only, so keys of every column family later in
the iteration stay locked, and no notification for them is broadcast
(the notification trace is also unchanged). -/
theorem batch_unlock_stops_at_missing_cf (max : Int) (hash : Nat → Nat)
    (txnId cf : Nat) (ks : List Nat) (post : List (Nat × List Nat)) :
    ∀ (pre : List (Nat × List Nat)) (reg : List (Nat × LockMapM))
      (notif : List (Nat × Nat)),
      (∀ p ∈ pre, (lookupM reg p.1).isSome = true) →
      lookupM reg cf = none →
      unLockBatch max hash txnId (pre ++ (cf, ks) :: post) (reg, notif) =
        unLockBatch max hash txnId pre (reg, notif) := by
  intro pre
  induction pre with
  | nil =>
      intro reg notif _ hcf
      simp only [List.nil_append, unLockBatch, hcf]
  | cons hd rest ih =>
      obtain ⟨c, cks⟩ := hd
      intro reg notif hpre hcf
      have hc : (lookupM reg c).isSome = true := hpre (c, cks) (by simp)
      obtain ⟨lm, hlm⟩ := Option.isSome_iff_exists.mp hc
      simp only [List.cons_append, unLockBatch, hlm]
      apply ih
      · intro p hp
        rw [lookupM_insertM]
        by_cases hpc : p.1 = c
        · simp [hpc]
        · rw [if_neg hpc]
          exact hpre p (List.mem_cons_of_mem _ hp)
      · rw [lookupM_insertM]
        have hccf : cf ≠ c := fun hh => by
          rw [hh, hlm] at hcf
          exact Option.noConfusion hcf
        rw [if_neg hccf]
        exact hcf

/-- Witness for `batch_unlock_stops_at_missing_cf`: column family 1 is
processed, column family 3 is gone, column family 2 (queued after it) is
never touched. -/
theorem batch_unlock_stops_at_missing_cf_witness :
    unLockBatch 0 (fun k => k) 1
        ([(1, [0])] ++ (3, [7]) :: [(2, [9])])
        ([(1, ⟨1, [[(0, ⟨1, 0⟩)]], 0⟩), (2, ⟨1, [[(9, ⟨1, 0⟩)]], 0⟩)], []) =
      unLockBatch 0 (fun k => k) 1 [(1, [0])]
        ([(1, ⟨1, [[(0, ⟨1, 0⟩)]], 0⟩), (2, ⟨1, [[(9, ⟨1, 0⟩)]], 0⟩)], []) :=
  batch_unlock_stops_at_missing_cf 0 (fun k => k) 1 3 [7] [(2, [9])]
    [(1, [0])]
    [(1, ⟨1, [[(0, ⟨1, 0⟩)]], 0⟩), (2, ⟨1, [[(9, ⟨1, 0⟩)]], 0⟩)] []
    (by decide) (by decide)

end LockMgr
